import Mathlib

/-!
Shallow embedding of the `LRU_Cache<Key, Value>` class template from the
repository.  The C++ `std::list<Key>` recency list becomes a `List K`
(front = most recently used, back = least recently used); the
`std::unordered_map<Key, std::pair<Value, list::iterator>>` becomes an
association list with unique keys.  The list iterator stored next to each
value is modelled by the key itself: the synchronisation invariant `WF`
says the map keys and the list entries coincide, so a key determines its
node.  Invocations of `m_delete_callback` are recorded in the `dlog`
field, guarded by `hasCb` (whether a delete callback is installed), and
`onCreate` models `m_create_callback`.  The one place where the C++ code
can run into undefined behaviour — `m_list.back()` on an empty list in
`erase_oldest` — is modelled by `Option`, returning `none` there.
-/

namespace LRU

/-- State of an `LRU_Cache<K, V>` object, plus the log `dlog` of values
passed to the delete callback so far. -/
@[ext] structure Cache (K V : Type) where
  list : List K
  map : List (K × V)
  capacity : Nat
  onCreate : Option (K → V)
  hasCb : Bool
  dlog : List V

variable {K V : Type} [DecidableEq K] [Inhabited V]

/-- Lookup in the association list, modelling `m_map.find`. -/
def mapFind : List (K × V) → K → Option V
  | [], _ => none
  | (k', v) :: m, k => if k' = k then some v else mapFind m k

/-- Removal of the (unique) binding of a key, modelling `m_map.erase`. -/
def mapEraseKey : List (K × V) → K → List (K × V)
  | [], _ => []
  | (k', v) :: m, k => if k' = k then m else (k', v) :: mapEraseKey m k

/-- In-place value update of an existing binding, modelling
`iter->second.first = val`. -/
def mapAssign : List (K × V) → K → V → List (K × V)
  | [], _, _ => []
  | (k', v') :: m, k, v => if k' = k then (k, v) :: m else (k', v') :: mapAssign m k v

/-- `size()`: number of map entries. -/
def size (c : Cache K V) : Nat := c.map.length

/-- `contains(key)`. -/
def contains (c : Cache K V) (k : K) : Bool := (mapFind c.map k).isSome

/-- `at(key)`: pure lookup returning `std::optional<Value>`. -/
def atKey (c : Cache K V) (k : K) : Option V := mapFind c.map k

/-- `map_erase(pos)`: fire the delete callback on the value at the
iterator, then erase the map entry.  The iterator is modelled by its key;
under `WF` the key is present wherever the C++ code calls this. -/
def map_erase (c : Cache K V) (k : K) : Cache K V :=
  match mapFind c.map k with
  | some v =>
    { c with map := mapEraseKey c.map k,
             dlog := if c.hasCb then c.dlog ++ [v] else c.dlog }
  | none => c

/-- `erase_oldest()`: read `m_list.back()`, pop it, erase the map entry.
`m_list.back()` on an empty list is undefined behaviour, modelled as
`none`. -/
def erase_oldest (c : Cache K V) : Option (Cache K V) :=
  match c.list.getLast? with
  | none => none
  | some key => some (map_erase { c with list := c.list.dropLast } key)

/-- `make_space()`: evict one entry exactly when `size() == m_capacity`. -/
def make_space (c : Cache K V) : Option (Cache K V) :=
  if size c = c.capacity then erase_oldest c else some c

/-- `insert(key, val)`: insert only if absent; `make_space` first, then
push the key to the front of the list and add the map entry. -/
def insert (c : Cache K V) (k : K) (v : V) : Option (Bool × Cache K V) :=
  if (mapFind c.map k).isNone then
    match make_space c with
    | none => none
    | some c' =>
      some (true, { c' with list := k :: c'.list, map := c'.map ++ [(k, v)] })
  else
    some (false, c)

/-- `touch(map_iterator&)`: unlink the node referenced by the iterator
and re-insert the key at the front of the list. -/
def touchAt (c : Cache K V) (k : K) : Cache K V :=
  { c with list := k :: c.list.erase k }

/-- `touch(const Key&)`: promote if present, report absence. -/
def touch (c : Cache K V) (k : K) : Bool × Cache K V :=
  if (mapFind c.map k).isSome then (true, touchAt c k) else (false, c)

/-- `assign(map_iterator&, val)`: fire the delete callback on the old
value, promote, install the new value. -/
def assignAt (c : Cache K V) (k : K) (v : V) : Cache K V :=
  match mapFind c.map k with
  | some oldv =>
    let c1 : Cache K V :=
      { c with dlog := if c.hasCb then c.dlog ++ [oldv] else c.dlog }
    let c2 := touchAt c1 k
    { c2 with map := mapAssign c2.map k v }
  | none => c

/-- `assign(const Key&, const Value&)`. -/
def assign (c : Cache K V) (k : K) (v : V) : Bool × Cache K V :=
  if (mapFind c.map k).isSome then (true, assignAt c k v) else (false, c)

/-- `insert_or_assign(key, val)`. -/
def insert_or_assign (c : Cache K V) (k : K) (v : V) : Option (Cache K V) :=
  if (mapFind c.map k).isSome then some (assignAt c k v)
  else (insert c k v).map Prod.snd

/-- The value `get` materialises on a miss:
`m_create_callback ? m_create_callback(key) : Value()`. -/
def createVal (c : Cache K V) (k : K) : V :=
  match c.onCreate with
  | some f => f k
  | none => default

/-- `get(key)`: promote-and-return if present, otherwise create, insert
and return `m_map[key].first`. -/
def get (c : Cache K V) (k : K) : Option (V × Cache K V) :=
  match mapFind c.map k with
  | some v => some (v, touchAt c k)
  | none =>
    match insert c k (createVal c k) with
    | none => none
    | some (_, c') => some ((mapFind c'.map k).getD default, c')

/-- `erase(key)`: unlink the list node, then `map_erase`. -/
def erase (c : Cache K V) (k : K) : Bool × Cache K V :=
  if (mapFind c.map k).isSome then
    (true, map_erase { c with list := c.list.erase k } k)
  else (false, c)

/-- Body of the do-while loop in `trim()`: run `erase_oldest`, repeat
while `m_list.size() > m_capacity`.  The first argument only bounds the
number of loop passes so that the recursion is structural: every pass of
`erase_oldest` unlinks exactly one list node, so `m_list.size()` passes
always suffice, and `trim` supplies exactly that bound. -/
def trimLoop : Nat → Cache K V → Option (Cache K V)
  | 0, _ => none
  | fuel + 1, c =>
    match erase_oldest c with
    | none => none
    | some c' => if c'.capacity < c'.list.length then trimLoop fuel c' else some c'

/-- `trim()`: nothing to do when `size() <= m_capacity`, otherwise the
do-while loop. -/
def trim (c : Cache K V) : Option (Bool × Cache K V) :=
  if size c ≤ c.capacity then some (false, c)
  else (trimLoop c.list.length c).map (fun c' => (true, c'))

/-- `clear()`: temporarily set capacity to `0`, trim, restore. -/
def clear (c : Cache K V) : Option (Cache K V) :=
  match trim { c with capacity := 0 } with
  | none => none
  | some (_, c') => some { c' with capacity := c.capacity }

/-- `resize(newSize)`: set capacity, trim. -/
def resize (c : Cache K V) (n : Nat) : Option (Cache K V) :=
  (trim { c with capacity := n }).map Prod.snd

/-- Values passed to the delete callback by the destructor: one per
still-resident map entry, in map iteration order. -/
def dtorFires (c : Cache K V) : List V :=
  if c.hasCb then c.map.map Prod.snd else []

/-- The main constructor `LRU_Cache(size, creator, deletor)`. -/
def mk (cap : Nat) (onCreate : Option (K → V)) (hasCb : Bool) : Cache K V :=
  { list := [], map := [], capacity := cap, onCreate := onCreate,
    hasCb := hasCb, dlog := [] }

/-- The initializer-list constructor: capacity is the length of the
list (duplicate keys counted), no callbacks, entries loaded with
`insert_or_assign` in order. -/
def ofInitList (il : List (K × V)) : Option (Cache K V) :=
  il.foldlM (fun c kv => insert_or_assign c kv.1 kv.2) (mk il.length none false)

/-- Driver that inserts a list of keys in order with values given by
`f`, as in the LRU-correctness scenario. -/
def insertAll (c : Cache K V) (ks : List K) (f : K → V) : Option (Cache K V) :=
  ks.foldlM (fun c k => (insert c k (f k)).map Prod.snd) c

/-- One public operation of the cache API, for scripted sequences. -/
inductive Op (K V : Type) where
  | insertOp (k : K) (v : V)
  | insertOrAssignOp (k : K) (v : V)
  | assignOp (k : K) (v : V)
  | getOp (k : K)
  | atOp (k : K)
  | containsOp (k : K)
  | touchOp (k : K)
  | eraseOp (k : K)
  | resizeOp (n : Nat)
  | clearOp

/-- Run one public operation, discarding its return value.  `at` and
`contains` have no effect on the state. -/
def step (c : Cache K V) : Op K V → Option (Cache K V)
  | .insertOp k v => (insert c k v).map Prod.snd
  | .insertOrAssignOp k v => insert_or_assign c k v
  | .assignOp k v => some (assign c k v).2
  | .getOp k => (get c k).map Prod.snd
  | .atOp _ => some c
  | .containsOp _ => some c
  | .touchOp k => some (touch c k).2
  | .eraseOp k => some (erase c k).2
  | .resizeOp n => resize c n
  | .clearOp => clear c

/-- Specification-side count of how many new values an operation stores
into the cache; only membership of the argument key is observed. -/
def introducedOf (c : Cache K V) : Op K V → Nat
  | .insertOp k _ => if contains c k then 0 else 1
  | .insertOrAssignOp _ _ => 1
  | .assignOp k _ => if contains c k then 1 else 0
  | .getOp k => if contains c k then 0 else 1
  | _ => 0

/-- Run a script, also summing the specification-side introduction
counts along the way. -/
def runCount (c : Cache K V) : List (Op K V) → Option (Cache K V × Nat)
  | [] => some (c, 0)
  | op :: ops =>
    match step c op with
    | none => none
    | some c' => (runCount c' ops).map (fun p => (p.1, introducedOf c op + p.2))

/-- Run a script of public operations. -/
def run (c : Cache K V) (ops : List (Op K V)) : Option (Cache K V) :=
  (runCount c ops).map Prod.fst

/-- Synchronisation invariant between the recency list and the lookup
map: the list has no duplicates and the map keys are a permutation of
the list. -/
def WF (c : Cache K V) : Prop :=
  c.list.Nodup ∧ (c.map.map Prod.fst).Perm c.list

/-! ### Lemmas about the association-list operations -/

theorem mapFind_isSome_iff (m : List (K × V)) (k : K) :
    (mapFind m k).isSome = true ↔ k ∈ m.map Prod.fst := by
  induction m with
  | nil => simp [mapFind]
  | cons kv m ih =>
    obtain ⟨k', v⟩ := kv
    by_cases hk : k' = k
    · subst hk; simp [mapFind]
    · simp [mapFind, hk, ih, Ne.symm hk]

theorem mapFind_eq_none_iff (m : List (K × V)) (k : K) :
    mapFind m k = none ↔ k ∉ m.map Prod.fst := by
  rw [← mapFind_isSome_iff]
  cases mapFind m k <;> simp

theorem mapEraseKey_keys (m : List (K × V)) (k : K) :
    (mapEraseKey m k).map Prod.fst = (m.map Prod.fst).erase k := by
  induction m with
  | nil => rfl
  | cons kv m ih =>
    obtain ⟨k', v⟩ := kv
    by_cases hk : k' = k
    · subst hk; simp [mapEraseKey]
    · have hne : ¬((k' == k) = true) := by simpa using hk
      simp [mapEraseKey, hk, ih, List.erase_cons_tail hne]

theorem mapAssign_keys (m : List (K × V)) (k : K) (v : V) :
    (mapAssign m k v).map Prod.fst = m.map Prod.fst := by
  induction m with
  | nil => rfl
  | cons kv m ih =>
    obtain ⟨k', v'⟩ := kv
    by_cases hk : k' = k
    · subst hk; simp [mapAssign]
    · simp [mapAssign, hk, ih]

theorem mapAssign_length (m : List (K × V)) (k : K) (v : V) :
    (mapAssign m k v).length = m.length := by
  have h := congrArg List.length (mapAssign_keys m k v)
  simpa using h

theorem mapEraseKey_length_of_mem (m : List (K × V)) (k : K)
    (h : k ∈ m.map Prod.fst) :
    (mapEraseKey m k).length = m.length - 1 := by
  have h1 := congrArg List.length (mapEraseKey_keys m k)
  rw [List.length_map] at h1
  rw [h1, List.length_erase_of_mem h, List.length_map]

theorem mapFind_append_of_not_mem (m₁ m₂ : List (K × V)) (k : K)
    (h : k ∉ m₁.map Prod.fst) : mapFind (m₁ ++ m₂) k = mapFind m₂ k := by
  induction m₁ with
  | nil => rfl
  | cons kv m ih =>
    obtain ⟨k', v⟩ := kv
    have hk : k' ≠ k := by
      intro he; exact h (by simp [he])
    have h' : k ∉ m.map Prod.fst := fun hm => h (by simp [hm])
    simp [mapFind, hk, ih h']

theorem mapFind_append_of_some (m₁ m₂ : List (K × V)) (k : K) (v : V)
    (h : mapFind m₁ k = some v) : mapFind (m₁ ++ m₂) k = some v := by
  induction m₁ with
  | nil => simp [mapFind] at h
  | cons kv m ih =>
    obtain ⟨k', v'⟩ := kv
    by_cases hk : k' = k
    · simp [mapFind, hk] at h ⊢; exact h
    · simp [mapFind, hk] at h ⊢; exact ih h

theorem mapFind_append_singleton_ne (m : List (K × V)) (k x : K) (v : V)
    (hx : x ≠ k) : mapFind (m ++ [(k, v)]) x = mapFind m x := by
  cases hm : mapFind m x with
  | some w => exact mapFind_append_of_some m [(k, v)] x w hm
  | none =>
    rw [mapFind_append_of_not_mem m [(k, v)] x ((mapFind_eq_none_iff m x).mp hm)]
    simp [mapFind, Ne.symm hx]

theorem mapFind_eq_some_of_mem (m : List (K × V)) (k : K) (v : V)
    (hnd : (m.map Prod.fst).Nodup) (h : (k, v) ∈ m) :
    mapFind m k = some v := by
  induction m with
  | nil => simp at h
  | cons kv m ih =>
    obtain ⟨k', v'⟩ := kv
    rcases List.mem_cons.mp h with h1 | h1
    · obtain ⟨hk, hv⟩ := Prod.ext_iff.mp h1
      subst hk
      subst hv
      simp [mapFind]
    · by_cases hk : k' = k
      · exfalso
        subst hk
        have hmem : k' ∈ m.map Prod.fst := List.mem_map_of_mem Prod.fst h1
        exact (List.nodup_cons.mp hnd).1 hmem
      · have hnd' : (m.map Prod.fst).Nodup := (List.nodup_cons.mp hnd).2
        simp [mapFind, hk, ih hnd' h1]

/-! ### Lemmas about the invariant `WF` -/

theorem WF.size_eq {c : Cache K V} (h : WF c) : size c = c.list.length := by
  have h1 := h.2.length_eq
  simpa [size] using h1

theorem WF.keys_nodup {c : Cache K V} (h : WF c) : (c.map.map Prod.fst).Nodup :=
  h.2.nodup_iff.mpr h.1

theorem WF.contains_iff {c : Cache K V} (h : WF c) (k : K) :
    contains c k = true ↔ k ∈ c.list := by
  unfold contains
  rw [mapFind_isSome_iff]
  exact h.2.mem_iff

theorem WF.contains_eq_false_iff {c : Cache K V} (h : WF c) (k : K) :
    contains c k = false ↔ k ∉ c.list := by
  rw [← h.contains_iff k]
  cases contains c k <;> simp

theorem mk_wf (cap : Nat) (oc : Option (K → V)) (cb : Bool) :
    WF (mk cap oc cb : Cache K V) := by
  constructor <;> simp [mk]

theorem contains_iff_mem_keys (c : Cache K V) (k : K) :
    contains c k = true ↔ k ∈ c.map.map Prod.fst := by
  unfold contains
  exact mapFind_isSome_iff c.map k

theorem contains_false_iff_keys (c : Cache K V) (k : K) :
    contains c k = false ↔ k ∉ c.map.map Prod.fst := by
  rw [← contains_iff_mem_keys]
  cases contains c k <;> simp

/-! ### Preservation lemmas for the individual operations -/

theorem erase_oldest_pres {c c' : Cache K V} (hwf : WF c)
    (h : erase_oldest c = some c') :
    WF c' ∧ size c' + 1 = size c ∧ c'.capacity = c.capacity ∧
    c'.onCreate = c.onCreate ∧ c'.hasCb = c.hasCb ∧
    c'.dlog.length = c.dlog.length + (if c.hasCb then 1 else 0) ∧
    c'.list = c.list.dropLast ∧
    (∀ k, contains c' k = true → contains c k = true) ∧
    (∀ a, c.list.getLast? = some a →
      ∀ x, x ≠ a → contains c' x = contains c x) := by
  unfold erase_oldest at h
  cases hl : c.list.getLast? with
  | none => rw [hl] at h; simp at h
  | some a =>
    rw [hl] at h
    simp only [Option.some.injEq] at h
    have hne : c.list ≠ [] := by
      intro hn; rw [hn] at hl; simp at hl
    have hdec : c.list.dropLast ++ [a] = c.list := by
      have h1 := List.dropLast_append_getLast hne
      have h2 : c.list.getLast hne = a := by
        rw [List.getLast?_eq_getLast c.list hne] at hl
        exact Option.some.inj hl
      rw [h2] at h1
      exact h1
    have hmem : a ∈ c.list := by rw [← hdec]; simp
    have hnd : c.list.dropLast.Nodup ∧ a ∉ c.list.dropLast := by
      have hx := hwf.1
      rw [← hdec, List.nodup_append] at hx
      exact ⟨hx.1, fun hm => hx.2.2 hm (by simp)⟩
    have herase : c.list.erase a = c.list.dropLast := by
      rw [← hdec, List.erase_append_right _ hnd.2]
      simp
    have hkey : a ∈ c.map.map Prod.fst := hwf.2.mem_iff.mpr hmem
    obtain ⟨v, hv⟩ := Option.isSome_iff_exists.mp ((mapFind_isSome_iff _ _).mpr hkey)
    have hme : map_erase ({ c with list := c.list.dropLast } : Cache K V) a =
        { c with list := c.list.dropLast, map := mapEraseKey c.map a,
                 dlog := if c.hasCb then c.dlog ++ [v] else c.dlog } := by
      unfold map_erase
      simp only [hv]
    rw [hme] at h
    subst h
    refine ⟨⟨hnd.1, ?_⟩, ?_, rfl, rfl, rfl, ?_, rfl, ?_, ?_⟩
    · have hp : ((mapEraseKey c.map a).map Prod.fst).Perm (c.list.erase a) := by
        rw [mapEraseKey_keys]
        exact hwf.2.erase a
      rw [herase] at hp
      exact hp
    · have hs : (mapEraseKey c.map a).length = c.map.length - 1 :=
        mapEraseKey_length_of_mem c.map a hkey
      have hpos : 0 < c.map.length := by
        by_contra hzero
        have : c.map = [] := List.length_eq_zero.mp (by omega)
        rw [this] at hkey
        simp at hkey
      simp only [size, hs]
      omega
    · cases hcb : c.hasCb <;> simp
    · intro k hk
      unfold contains at hk ⊢
      rw [mapFind_isSome_iff] at hk ⊢
      rw [mapEraseKey_keys] at hk
      exact List.mem_of_mem_erase hk
    · intro a' ha' x hx
      have ha'a : a = a' := Option.some.inj ha'
      have hx' : x ≠ a := by rw [ha'a]; exact hx
      have hiff : x ∈ (mapEraseKey c.map a).map Prod.fst ↔
          x ∈ c.map.map Prod.fst := by
        rw [mapEraseKey_keys, hwf.keys_nodup.mem_erase_iff]
        simp [hx']
      cases hcx : contains c x
      · rw [contains_false_iff_keys]
        intro hm
        have hm' : x ∈ (mapEraseKey c.map a).map Prod.fst := hm
        have hm2 : x ∈ c.map.map Prod.fst := hiff.mp hm'
        have hcc := (contains_iff_mem_keys c x).mpr hm2
        rw [hcx] at hcc
        simp at hcc
      · rw [contains_iff_mem_keys]
        show x ∈ (mapEraseKey c.map a).map Prod.fst
        exact hiff.mpr ((contains_iff_mem_keys c x).mp hcx)

theorem make_space_pres {c c' : Cache K V} (hwf : WF c)
    (h : make_space c = some c') :
    WF c' ∧ c'.capacity = c.capacity ∧ c'.onCreate = c.onCreate ∧
    c'.hasCb = c.hasCb ∧ (∀ k, contains c' k = true → contains c k = true) ∧
    ((size c = c.capacity ∧ size c' + 1 = size c ∧
        c'.dlog.length = c.dlog.length + (if c.hasCb then 1 else 0) ∧
        (∀ a, c.list.getLast? = some a → contains c' a = false) ∧
        (∀ a, c.list.getLast? = some a →
          ∀ x, x ≠ a → contains c' x = contains c x)) ∨
     (size c ≠ c.capacity ∧ c' = c)) := by
  unfold make_space at h
  by_cases hsz : size c = c.capacity
  · rw [if_pos hsz] at h
    obtain ⟨hwf', hsize, hcap, hoc, hcb, hdl, hlist, hmono, hframe⟩ :=
      erase_oldest_pres hwf h
    refine ⟨hwf', hcap, hoc, hcb, hmono, Or.inl ⟨hsz, hsize, hdl, ?_, hframe⟩⟩
    intro a ha
    have hne : c.list ≠ [] := by
      intro hn; rw [hn] at ha; simp at ha
    have hdec : c.list.dropLast ++ [a] = c.list := by
      have h1 := List.dropLast_append_getLast hne
      have h2 : c.list.getLast hne = a := by
        rw [List.getLast?_eq_getLast c.list hne] at ha
        exact Option.some.inj ha
      rw [h2] at h1
      exact h1
    have hnotmem : a ∉ c.list.dropLast := by
      have hx := hwf.1
      rw [← hdec, List.nodup_append] at hx
      exact fun hm => hx.2.2 hm (by simp)
    rw [hwf'.contains_eq_false_iff, hlist]
    exact hnotmem
  · rw [if_neg hsz] at h
    obtain rfl := Option.some.inj h
    exact ⟨hwf, rfl, rfl, rfl, fun k hk => hk, Or.inr ⟨hsz, rfl⟩⟩

theorem touchAt_wf {c : Cache K V} {k : K} (hwf : WF c) (hk : k ∈ c.list) :
    WF (touchAt c k) := by
  constructor
  · exact List.nodup_cons.mpr ⟨hwf.1.not_mem_erase, hwf.1.erase k⟩
  · exact hwf.2.trans (List.perm_cons_erase hk)

theorem assignAt_pres {c : Cache K V} {k : K} (v : V) (hwf : WF c)
    (hk : contains c k = true) :
    WF (assignAt c k v) ∧ size (assignAt c k v) = size c ∧
    (assignAt c k v).capacity = c.capacity ∧
    (assignAt c k v).onCreate = c.onCreate ∧
    (assignAt c k v).hasCb = c.hasCb ∧
    (assignAt c k v).dlog.length = c.dlog.length + (if c.hasCb then 1 else 0) := by
  obtain ⟨oldv, hov⟩ := Option.isSome_iff_exists.mp hk
  have hmem : k ∈ c.list := (hwf.contains_iff k).mp hk
  have hass : assignAt c k v =
      { c with list := k :: c.list.erase k,
               map := mapAssign c.map k v,
               dlog := if c.hasCb then c.dlog ++ [oldv] else c.dlog } := by
    unfold assignAt
    simp only [hov, touchAt]
  rw [hass]
  refine ⟨⟨?_, ?_⟩, ?_, rfl, rfl, rfl, ?_⟩
  · exact List.nodup_cons.mpr ⟨hwf.1.not_mem_erase, hwf.1.erase k⟩
  · rw [mapAssign_keys]
    exact hwf.2.trans (List.perm_cons_erase hmem)
  · simp only [size, mapAssign_length]
  · cases hcb : c.hasCb <;> simp

theorem insert_pres {c : Cache K V} {k : K} {v : V} {b : Bool} {c₂ : Cache K V}
    (hwf : WF c) (h : insert c k v = some (b, c₂)) :
    WF c₂ ∧ c₂.capacity = c.capacity ∧ c₂.onCreate = c.onCreate ∧
    c₂.hasCb = c.hasCb ∧
    (contains c k = true → b = false ∧ c₂ = c) ∧
    (contains c k = false →
      b = true ∧ mapFind c₂.map k = some v ∧ c₂.list.head? = some k ∧
      ((size c = c.capacity ∧ size c₂ = size c ∧
          c₂.dlog.length = c.dlog.length + (if c.hasCb then 1 else 0) ∧
          (∀ a, c.list.getLast? = some a → contains c₂ a = false) ∧
          (∀ a, c.list.getLast? = some a →
            ∀ x, x ≠ a → x ≠ k → contains c₂ x = contains c x)) ∨
       (size c ≠ c.capacity ∧ size c₂ = size c + 1 ∧ c₂.dlog = c.dlog ∧
          (∀ x, x ≠ k → contains c₂ x = contains c x)))) := by
  unfold insert at h
  by_cases habs : (mapFind c.map k).isNone
  · rw [if_pos habs] at h
    have habs' : contains c k = false := by
      unfold contains
      cases hmf : mapFind c.map k
      · rfl
      · rw [hmf] at habs; simp at habs
    cases hms : make_space c with
    | none => rw [hms] at h; simp at h
    | some c₁ =>
      rw [hms] at h
      simp only [Option.some.injEq, Prod.mk.injEq] at h
      obtain ⟨hb, hc₂⟩ := h
      obtain ⟨hwf₁, hcap₁, hoc₁, hcb₁, hmono₁, hcase⟩ := make_space_pres hwf hms
      have habs₁ : contains c₁ k = false := by
        cases hc1 : contains c₁ k
        · rfl
        · exact absurd (hmono₁ k hc1) (by rw [habs']; simp)
      have hknotin : k ∉ c₁.map.map Prod.fst :=
        (contains_false_iff_keys c₁ k).mp habs₁
      have hknotlist : k ∉ c₁.list := fun hm =>
        absurd ((hwf₁.contains_iff k).mpr hm) (by rw [habs₁]; simp)
      have hwf₂ : WF c₂ := by
        rw [← hc₂]
        constructor
        · exact List.nodup_cons.mpr ⟨hknotlist, hwf₁.1⟩
        · simp only [List.map_append]
          exact (List.perm_append_singleton k _).trans (hwf₁.2.cons k)
      have hfind₂ : mapFind c₂.map k = some v := by
        rw [← hc₂]
        simp only
        rw [mapFind_append_of_not_mem _ _ _ hknotin]
        simp [mapFind]
      have hsize₂ : size c₂ = size c₁ + 1 := by
        rw [← hc₂]
        simp [size]
      refine ⟨hwf₂, by rw [← hc₂]; exact hcap₁, by rw [← hc₂]; exact hoc₁,
        by rw [← hc₂]; exact hcb₁, ?_, ?_⟩
      · intro hpres; rw [hpres] at habs'; simp at habs'
      · intro _
        have hstep : ∀ x, x ≠ k → contains c₂ x = contains c₁ x := by
          intro x hx
          rw [← hc₂]
          show (mapFind (c₁.map ++ [(k, v)]) x).isSome
            = (mapFind c₁.map x).isSome
          rw [mapFind_append_singleton_ne _ _ _ _ hx]
        refine ⟨hb.symm, hfind₂, by rw [← hc₂]; rfl, ?_⟩
        rcases hcase with ⟨heq, hsz, hdl, hevict, hframe₁⟩ | ⟨hne, hc₁c⟩
        · left
          refine ⟨heq, by omega, by rw [← hc₂]; simpa using hdl, ?_, ?_⟩
          swap
          · intro a ha x hx hxk
            rw [hstep x hxk]
            exact hframe₁ a ha x hx
          intro a ha
          have ha₁ : contains c₁ a = false := hevict a ha
          have hamem : a ∈ c.list := by
            have hne2 : c.list ≠ [] := by
              intro hn; rw [hn] at ha; simp at ha
            have h1 := List.dropLast_append_getLast hne2
            have h2 : c.list.getLast hne2 = a := by
              rw [List.getLast?_eq_getLast c.list hne2] at ha
              exact Option.some.inj ha
            rw [h2] at h1
            rw [← h1]; simp
          have hak : a ≠ k := by
            intro he
            rw [he] at hamem
            exact absurd ((hwf.contains_iff k).mpr hamem) (by rw [habs']; simp)
          have hanotin₁ : a ∉ c₁.map.map Prod.fst :=
            (contains_false_iff_keys c₁ a).mp ha₁
          rw [← hc₂]
          unfold contains
          simp only
          rw [mapFind_append_of_not_mem _ _ _ hanotin₁]
          simp [mapFind, Ne.symm hak]
        · right
          refine ⟨hne, ?_, ?_, ?_⟩
          · rw [hsize₂, hc₁c]
          · rw [← hc₂, hc₁c]
          · intro x hx
            rw [hstep x hx, hc₁c]
  · rw [if_neg habs] at h
    simp only [Option.some.injEq, Prod.mk.injEq] at h
    obtain ⟨hb, hc₂⟩ := h
    subst hc₂
    have hpres : contains c k = true := by
      unfold contains
      cases hmf : mapFind c.map k
      · rw [hmf] at habs; simp at habs
      · rfl
    exact ⟨hwf, rfl, rfl, rfl, fun _ => ⟨hb.symm, rfl⟩,
      fun hfa => by rw [hfa] at hpres; simp at hpres⟩

theorem erase_pres {c : Cache K V} {k : K} (hwf : WF c)
    (hk : contains c k = true) :
    (erase c k).1 = true ∧ WF (erase c k).2 ∧ size (erase c k).2 + 1 = size c ∧
    (erase c k).2.capacity = c.capacity ∧ (erase c k).2.onCreate = c.onCreate ∧
    (erase c k).2.hasCb = c.hasCb ∧
    (erase c k).2.dlog.length = c.dlog.length + (if c.hasCb then 1 else 0) ∧
    contains (erase c k).2 k = false := by
  obtain ⟨v, hv⟩ := Option.isSome_iff_exists.mp hk
  have hmem : k ∈ c.list := (hwf.contains_iff k).mp hk
  have hkey : k ∈ c.map.map Prod.fst := by
    rw [← mapFind_isSome_iff, hv]; rfl
  have he : erase c k =
      (true, { c with list := c.list.erase k,
                      map := mapEraseKey c.map k,
                      dlog := if c.hasCb then c.dlog ++ [v] else c.dlog }) := by
    unfold erase map_erase
    simp only [hv, Option.isSome_some, if_pos]
  rw [he]
  refine ⟨rfl, ⟨hwf.1.erase k, ?_⟩, ?_, rfl, rfl, rfl, ?_, ?_⟩
  · rw [mapEraseKey_keys]
    exact hwf.2.erase k
  · have hs : (mapEraseKey c.map k).length = c.map.length - 1 :=
      mapEraseKey_length_of_mem c.map k hkey
    have hpos : 0 < c.map.length := by
      by_contra hzero
      have : c.map = [] := List.length_eq_zero.mp (by omega)
      rw [this] at hkey
      simp at hkey
    simp only [size, hs]
    omega
  · cases hcb : c.hasCb <;> simp
  · rw [contains_false_iff_keys]
    simp only
    rw [mapEraseKey_keys]
    exact hwf.keys_nodup.not_mem_erase

/-! ### The trimming loop, `trim`, `clear` and `resize` -/

theorem trimLoop_pres : ∀ (fuel : Nat) (c : Cache K V), WF c →
    ∀ c', trimLoop fuel c = some c' →
    WF c' ∧ c'.capacity = c.capacity ∧ c'.onCreate = c.onCreate ∧
    c'.hasCb = c.hasCb ∧ size c' ≤ c.capacity ∧
    (c.hasCb = true → c'.dlog.length + size c' = c.dlog.length + size c) := by
  intro fuel
  induction fuel with
  | zero =>
    intro c hwf c' h
    simp [trimLoop] at h
  | succ n ih =>
    intro c hwf c' h
    unfold trimLoop at h
    split at h
    · simp at h
    · rename_i c₁ heo
      obtain ⟨hwf₁, hsz₁, hcap₁, hoc₁, hcb₁, hdl₁, hlist₁, hmono₁, hframe₁⟩ :=
        erase_oldest_pres hwf heo
      by_cases hc : c₁.capacity < c₁.list.length
      · rw [if_pos hc] at h
        obtain ⟨hwf', hcap', hoc', hcb', hsize', hcons'⟩ := ih c₁ hwf₁ c' h
        refine ⟨hwf', by rw [hcap', hcap₁], by rw [hoc', hoc₁],
          by rw [hcb', hcb₁], by rw [← hcap₁]; exact hsize', ?_⟩
        intro hcb
        have hcb₁' : c₁.hasCb = true := by rw [hcb₁, hcb]
        have e1 := hcons' hcb₁'
        rw [hcb] at hdl₁
        simp at hdl₁
        omega
      · rw [if_neg hc] at h
        obtain rfl := Option.some.inj h
        refine ⟨hwf₁, hcap₁, hoc₁, hcb₁, ?_, ?_⟩
        · have hs := hwf₁.size_eq
          rw [← hcap₁]
          omega
        · intro hcb
          rw [hcb] at hdl₁
          simp at hdl₁
          omega

theorem trim_pres {c : Cache K V} {b : Bool} {c' : Cache K V} (hwf : WF c)
    (h : trim c = some (b, c')) :
    WF c' ∧ c'.capacity = c.capacity ∧ c'.onCreate = c.onCreate ∧
    c'.hasCb = c.hasCb ∧ size c' ≤ c.capacity ∧
    (c.hasCb = true → c'.dlog.length + size c' = c.dlog.length + size c) := by
  unfold trim at h
  by_cases hsz : size c ≤ c.capacity
  · rw [if_pos hsz] at h
    simp only [Option.some.injEq, Prod.mk.injEq] at h
    obtain ⟨hb, rfl⟩ := h
    exact ⟨hwf, rfl, rfl, rfl, hsz, fun _ => rfl⟩
  · rw [if_neg hsz] at h
    cases htl : trimLoop c.list.length c with
    | none => rw [htl] at h; simp at h
    | some c₁ =>
      rw [htl] at h
      simp only [Option.map_some', Option.some.injEq, Prod.mk.injEq] at h
      obtain ⟨hb, rfl⟩ := h
      exact trimLoop_pres c.list.length c hwf c₁ htl

theorem clear_pres {c c' : Cache K V} (hwf : WF c) (h : clear c = some c') :
    WF c' ∧ c'.capacity = c.capacity ∧ c'.onCreate = c.onCreate ∧
    c'.hasCb = c.hasCb ∧ size c' = 0 ∧
    (c.hasCb = true → c'.dlog.length = c.dlog.length + size c) := by
  unfold clear at h
  cases ht : trim ({ c with capacity := 0 } : Cache K V) with
  | none => rw [ht] at h; simp at h
  | some p =>
    obtain ⟨b, c₁⟩ := p
    rw [ht] at h
    simp only [Option.some.injEq] at h
    have hwf0 : WF ({ c with capacity := 0 } : Cache K V) := hwf
    obtain ⟨hwf₁, hcap₁, hoc₁, hcb₁, hsize₁, hcons₁⟩ := trim_pres hwf0 ht
    subst h
    have hsz0 : size c₁ = 0 := by
      have h0 : size c₁ ≤ 0 := hsize₁
      omega
    refine ⟨hwf₁, by simp, hoc₁, hcb₁, hsz0, ?_⟩
    intro hcb
    have e1 := hcons₁ hcb
    simp only [size] at e1 hsz0 ⊢
    omega

theorem resize_pres {c : Cache K V} {n : Nat} {c' : Cache K V} (hwf : WF c)
    (h : resize c n = some c') :
    WF c' ∧ c'.capacity = n ∧ c'.onCreate = c.onCreate ∧ c'.hasCb = c.hasCb ∧
    size c' ≤ n ∧
    (c.hasCb = true → c'.dlog.length + size c' = c.dlog.length + size c) := by
  unfold resize at h
  cases ht : trim ({ c with capacity := n } : Cache K V) with
  | none => rw [ht] at h; simp at h
  | some p =>
    obtain ⟨b, c₁⟩ := p
    rw [ht] at h
    simp only [Option.map_some', Option.some.injEq] at h
    subst h
    have hwfn : WF ({ c with capacity := n } : Cache K V) := hwf
    obtain ⟨hwf₁, hcap₁, hoc₁, hcb₁, hsize₁, hcons₁⟩ := trim_pres hwfn ht
    exact ⟨hwf₁, hcap₁, hoc₁, hcb₁, hsize₁, hcons₁⟩

/-! ### Preservation of the invariant and callback accounting per step -/

theorem insert_step_pres {c : Cache K V} {k : K} {v : V} {b : Bool}
    {c₂ : Cache K V} (hwf : WF c) (hsz : size c ≤ c.capacity)
    (h : insert c k v = some (b, c₂)) :
    WF c₂ ∧ size c₂ ≤ c₂.capacity ∧ c₂.hasCb = c.hasCb ∧
    c₂.onCreate = c.onCreate ∧
    (c.hasCb = true → c₂.dlog.length + size c₂ =
      c.dlog.length + size c + (if contains c k then 0 else 1)) := by
  obtain ⟨hwf₂, hcap₂, hoc₂, hcb₂, hpres, habs⟩ := insert_pres hwf h
  by_cases hck : contains c k = true
  · obtain ⟨hb, rfl⟩ := hpres hck
    exact ⟨hwf, hsz, rfl, rfl, fun _ => by simp [hck]⟩
  · have hck' : contains c k = false := by
      cases hcc : contains c k
      · rfl
      · exact absurd hcc hck
    obtain ⟨hb, hfind, hhead, hcase⟩ := habs hck'
    rcases hcase with ⟨heq, hs, hdl, _, _⟩ | ⟨hne, hs, hdl, _⟩
    · refine ⟨hwf₂, by rw [hcap₂, hs]; exact hsz, hcb₂, hoc₂, ?_⟩
      intro hcb
      rw [hcb] at hdl
      simp at hdl
      simp [hck']
      omega
    · refine ⟨hwf₂, by rw [hcap₂, hs]; omega, hcb₂, hoc₂, ?_⟩
      intro hcb
      have hdl' := congrArg List.length hdl
      simp [hck']
      omega

theorem step_pres {c : Cache K V} {op : Op K V} {c' : Cache K V}
    (hwf : WF c) (hsz : size c ≤ c.capacity) (h : step c op = some c') :
    WF c' ∧ size c' ≤ c'.capacity ∧ c'.hasCb = c.hasCb ∧
    c'.onCreate = c.onCreate ∧
    (c.hasCb = true →
      c'.dlog.length + size c' = c.dlog.length + size c + introducedOf c op) := by
  cases op with
  | insertOp k v =>
    simp only [step] at h
    cases hins : insert c k v with
    | none => rw [hins] at h; simp at h
    | some p =>
      obtain ⟨b, c₂⟩ := p
      rw [hins] at h
      simp only [Option.map_some', Option.some.injEq] at h
      subst h
      obtain ⟨h1, h2, h3, h4, h5⟩ := insert_step_pres hwf hsz hins
      exact ⟨h1, h2, h3, h4, fun hcb => by simpa [introducedOf] using h5 hcb⟩
  | insertOrAssignOp k v =>
    simp only [step] at h
    unfold insert_or_assign at h
    by_cases hck : contains c k = true
    · have hq : (mapFind c.map k).isSome = true := hck
      rw [if_pos hq] at h
      obtain rfl := Option.some.inj h
      obtain ⟨h1, h2, h3, h4, h5, h6⟩ := assignAt_pres v hwf hck
      refine ⟨h1, by rw [h2, h3]; exact hsz, h5, h4, ?_⟩
      intro hcb
      rw [hcb] at h6
      simp at h6
      simp only [introducedOf]
      omega
    · have hck' : contains c k = false := by
        cases hcc : contains c k
        · rfl
        · exact absurd hcc hck
      have hq : ¬(mapFind c.map k).isSome = true := fun hx => hck hx
      rw [if_neg hq] at h
      cases hins : insert c k v with
      | none => rw [hins] at h; simp at h
      | some p =>
        obtain ⟨b, c₂⟩ := p
        rw [hins] at h
        simp only [Option.map_some', Option.some.injEq] at h
        subst h
        obtain ⟨h1, h2, h3, h4, h5⟩ := insert_step_pres hwf hsz hins
        refine ⟨h1, h2, h3, h4, ?_⟩
        intro hcb
        have e1 := h5 hcb
        simp [hck'] at e1
        simp only [introducedOf]
        omega
  | assignOp k v =>
    simp only [step] at h
    by_cases hck : contains c k = true
    · have hq : (mapFind c.map k).isSome = true := hck
      have hav : assign c k v = (true, assignAt c k v) := by
        unfold assign
        rw [if_pos hq]
      rw [hav] at h
      have h2 : some (assignAt c k v) = some c' := h
      obtain rfl := Option.some.inj h2
      obtain ⟨h1, h2, h3, h4, h5, h6⟩ := assignAt_pres v hwf hck
      refine ⟨h1, by rw [h2, h3]; exact hsz, h5, h4, ?_⟩
      intro hcb
      rw [hcb] at h6
      simp at h6
      simp only [introducedOf]
      simp [hck]
      omega
    · have hck' : contains c k = false := by
        cases hcc : contains c k
        · rfl
        · exact absurd hcc hck
      have hq : ¬(mapFind c.map k).isSome = true := fun hx => hck hx
      have hav : assign c k v = (false, c) := by
        unfold assign
        rw [if_neg hq]
      rw [hav] at h
      have h2 : some c = some c' := h
      obtain rfl := Option.some.inj h2
      refine ⟨hwf, hsz, rfl, rfl, ?_⟩
      intro _
      simp [introducedOf, hck']
  | getOp k =>
    simp only [step] at h
    unfold get at h
    cases hmf : mapFind c.map k with
    | some v =>
      rw [hmf] at h
      simp only [Option.map_some', Option.some.injEq] at h
      subst h
      have hck : contains c k = true := by
        unfold contains
        rw [hmf]
        rfl
      have hmem : k ∈ c.list := (hwf.contains_iff k).mp hck
      refine ⟨touchAt_wf hwf hmem, ?_, rfl, rfl, ?_⟩
      · show size (touchAt c k) ≤ (touchAt c k).capacity
        simpa [touchAt, size] using hsz
      · intro _
        simp [touchAt, size, introducedOf, hck]
    | none =>
      rw [hmf] at h
      cases hins : insert c k (createVal c k) with
      | none => rw [hins] at h; simp at h
      | some p =>
        obtain ⟨b, c₂⟩ := p
        rw [hins] at h
        simp only [Option.map_some', Option.some.injEq] at h
        subst h
        have hck' : contains c k = false := by
          unfold contains
          rw [hmf]
          rfl
        obtain ⟨h1, h2, h3, h4, h5⟩ := insert_step_pres hwf hsz hins
        refine ⟨h1, h2, h3, h4, ?_⟩
        intro hcb
        have e1 := h5 hcb
        simp [hck'] at e1
        simp only [introducedOf]
        simp [hck']
        omega
  | atOp k =>
    obtain rfl := Option.some.inj h
    exact ⟨hwf, hsz, rfl, rfl, by simp [introducedOf]⟩
  | containsOp k =>
    obtain rfl := Option.some.inj h
    exact ⟨hwf, hsz, rfl, rfl, by simp [introducedOf]⟩
  | touchOp k =>
    simp only [step] at h
    by_cases hck : contains c k = true
    · have hq : (mapFind c.map k).isSome = true := hck
      have htv : touch c k = (true, touchAt c k) := by
        unfold touch
        rw [if_pos hq]
      rw [htv] at h
      have h2 : some (touchAt c k) = some c' := h
      obtain rfl := Option.some.inj h2
      have hmem : k ∈ c.list := (hwf.contains_iff k).mp hck
      refine ⟨touchAt_wf hwf hmem, ?_, rfl, rfl, ?_⟩
      · show size (touchAt c k) ≤ (touchAt c k).capacity
        simpa [touchAt, size] using hsz
      · intro _
        simp [touchAt, size, introducedOf]
    · have hq : ¬(mapFind c.map k).isSome = true := fun hx => hck hx
      have htv : touch c k = (false, c) := by
        unfold touch
        rw [if_neg hq]
      rw [htv] at h
      have h2 : some c = some c' := h
      obtain rfl := Option.some.inj h2
      exact ⟨hwf, hsz, rfl, rfl, by simp [introducedOf]⟩
  | eraseOp k =>
    simp only [step] at h
    by_cases hck : contains c k = true
    · obtain ⟨he1, he2, he3, he4, he5, he6, he7, he8⟩ := erase_pres hwf hck
      have h2 : some (erase c k).2 = some c' := h
      obtain rfl := Option.some.inj h2
      refine ⟨he2, ?_, he6, he5, ?_⟩
      · rw [he4]
        omega
      · intro hcb
        rw [hcb] at he7
        simp at he7
        simp only [introducedOf]
        omega
    · have hq : ¬(mapFind c.map k).isSome = true := fun hx => hck hx
      have hev : erase c k = (false, c) := by
        unfold erase
        rw [if_neg hq]
      rw [hev] at h
      have h2 : some c = some c' := h
      obtain rfl := Option.some.inj h2
      exact ⟨hwf, hsz, rfl, rfl, by simp [introducedOf]⟩
  | resizeOp n =>
    simp only [step] at h
    obtain ⟨h1, h2, h3, h4, h5, h6⟩ := resize_pres hwf h
    refine ⟨h1, by rw [h2]; exact h5, h4, h3, ?_⟩
    intro hcb
    have e1 := h6 hcb
    simp only [introducedOf]
    omega
  | clearOp =>
    simp only [step] at h
    obtain ⟨h1, h2, h3, h4, h5, h6⟩ := clear_pres hwf h
    refine ⟨h1, by rw [h5]; exact Nat.zero_le _, h4, h3, ?_⟩
    intro hcb
    have e1 := h6 hcb
    simp only [introducedOf]
    omega

theorem runCount_pres : ∀ (ops : List (Op K V)) (c c' : Cache K V) (n : Nat),
    WF c → size c ≤ c.capacity → runCount c ops = some (c', n) →
    WF c' ∧ size c' ≤ c'.capacity ∧ c'.hasCb = c.hasCb ∧
    c'.onCreate = c.onCreate ∧
    (c.hasCb = true → c'.dlog.length + size c' = c.dlog.length + size c + n) := by
  intro ops
  induction ops with
  | nil =>
    intro c c' n hwf hsz h
    unfold runCount at h
    simp only [Option.some.injEq, Prod.mk.injEq] at h
    obtain ⟨rfl, rfl⟩ := h
    exact ⟨hwf, hsz, rfl, rfl, by simp⟩
  | cons op ops ih =>
    intro c c' n hwf hsz h
    unfold runCount at h
    split at h
    · simp at h
    · rename_i c₁ hst
      cases hrc : runCount c₁ ops with
      | none => rw [hrc] at h; simp at h
      | some p =>
        obtain ⟨c₂, m⟩ := p
        rw [hrc] at h
        simp only [Option.map_some', Option.some.injEq, Prod.mk.injEq] at h
        obtain ⟨rfl, rfl⟩ := h
        obtain ⟨hw1, hs1, hcb1, hoc1, hcons1⟩ := step_pres hwf hsz hst
        obtain ⟨hw2, hs2, hcb2, hoc2, hcons2⟩ := ih c₁ c₂ m hw1 hs1 hrc
        refine ⟨hw2, hs2, by rw [hcb2, hcb1], by rw [hoc2, hoc1], ?_⟩
        intro hcb
        have hcb₁ : c₁.hasCb = true := by rw [hcb1, hcb]
        have e1 := hcons1 hcb
        have e2 := hcons2 hcb₁
        omega

/-! ### The claims -/

/-- C1: for every sequence of public operations on a cache satisfying
the construction-time invariant (synchronised structures, within
capacity — true of every freshly constructed cache), `size() ≤
capacity()` holds whenever a run of the script returns; `0 ≤ size()` is
automatic since sizes are natural numbers.  Every prefix of a script is
itself a script, so this covers the state after each individual call
returns. -/
theorem C1_capacity_invariant {c c' : Cache K V} (ops : List (Op K V))
    (hwf : WF c) (hsz : size c ≤ c.capacity) (h : run c ops = some c') :
    size c' ≤ c'.capacity := by
  unfold run at h
  cases hrc : runCount c ops with
  | none => rw [hrc] at h; simp at h
  | some p =>
    obtain ⟨c₂, n⟩ := p
    rw [hrc] at h
    simp only [Option.map_some', Option.some.injEq] at h
    subst h
    exact (runCount_pres ops c c₂ n hwf hsz hrc).2.1

/-- Witness for C1 at a concrete cache and script. -/
theorem C1_capacity_invariant_witness :
    ∃ c' : Cache Nat Nat,
      run (mk 2 none false)
        [Op.insertOp 1 10, Op.insertOp 2 20, Op.insertOp 3 30] = some c' ∧
      size c' ≤ c'.capacity := by
  have h : run (mk 2 none false : Cache Nat Nat)
      [Op.insertOp 1 10, Op.insertOp 2 20, Op.insertOp 3 30] =
      some { list := [3, 2], map := [(2, 20), (3, 30)], capacity := 2,
             onCreate := none, hasCb := false, dlog := [] } := by rfl
  exact ⟨_, h, C1_capacity_invariant _ (mk_wf 2 none false) (by decide) h⟩

/-- C2: the claim fails on the code.  On a fresh cache of capacity `0`,
`insert` runs `make_space` with `size() == m_capacity == 0`, which calls
`erase_oldest`, which reads `m_list.back()` on the empty recency list —
undefined behaviour, modelled as `none` — so the insert does not
complete normally, contrary to the claim. -/
theorem C2_capacity_zero_insert_hits_empty_back :
    insert (mk 0 none false : Cache Nat Nat) 0 0 = none ∧
    erase_oldest (mk 0 none false : Cache Nat Nat) = none :=
  ⟨rfl, rfl⟩

/-- C5: with a delete callback configured, over any scripted sequence of
operations from a fresh cache, the `on_delete` invocations made during
the script plus the ones made by the destructor together number exactly
the values that entered the cache — i.e. `on_delete` fires exactly once
per value that leaves the cache (overwrite, eviction, erase, clear,
trim, destruction), and never for values merely read (`get` on a present
key, `at`, `contains`) or promoted (`touch`). -/
theorem C5_delete_callback_cardinality (cap : Nat) (oc : Option (K → V))
    (ops : List (Op K V)) (c' : Cache K V) (n : Nat)
    (h : runCount (mk cap oc true) ops = some (c', n)) :
    (c'.dlog.length + (dtorFires c').length = n ∧
      (dtorFires c').length = size c') ∧
    (∀ (d : Cache K V) (k : K),
      ((touch d k).2).dlog = d.dlog ∧
      (∀ v d₂, contains d k = true → get d k = some (v, d₂) →
        d₂.dlog = d.dlog)) := by
  obtain ⟨hwf', hsz', hcb', hoc', hcons⟩ :=
    runCount_pres ops (mk cap oc true) c' n (mk_wf cap oc true)
      (by simp [mk, size]) h
  have hcbt : c'.hasCb = true := hcb'
  have e := hcons rfl
  simp only [mk, size, List.length_nil] at e
  have hdt : (dtorFires c').length = size c' := by
    simp [dtorFires, hcbt, size]
  refine ⟨⟨?_, hdt⟩, ?_⟩
  · rw [hdt]
    simp only [size] at e ⊢
    omega
  · intro d k
    constructor
    · unfold touch
      by_cases hq : (mapFind d.map k).isSome = true
      · rw [if_pos hq]
        rfl
      · rw [if_neg hq]
    · intro v d₂ hck hg
      obtain ⟨v', hv'⟩ := Option.isSome_iff_exists.mp hck
      unfold get at hg
      rw [hv'] at hg
      simp only [Option.some.injEq, Prod.mk.injEq] at hg
      obtain ⟨hveq, hd₂⟩ := hg
      rw [← hd₂]
      rfl

/-- Witness for C5 at a concrete script exercising insert, overwrite,
read, promotion, eviction, erase and clear. -/
theorem C5_delete_callback_cardinality_witness :
    ∃ (c' : Cache Nat Nat) (n : Nat),
      runCount (mk 2 none true)
        [Op.insertOp 1 10, Op.insertOp 2 20, Op.assignOp 1 11,
         Op.atOp 2, Op.touchOp 2, Op.insertOp 3 30, Op.eraseOp 2,
         Op.clearOp] = some (c', n) ∧
      (c'.dlog.length + (dtorFires c').length = n ∧
        (dtorFires c').length = size c') := by
  have h : runCount (mk 2 none true : Cache Nat Nat)
      [Op.insertOp 1 10, Op.insertOp 2 20, Op.assignOp 1 11,
       Op.atOp 2, Op.touchOp 2, Op.insertOp 3 30, Op.eraseOp 2,
       Op.clearOp] =
      some ({ list := [], map := [], capacity := 2, onCreate := none,
              hasCb := true, dlog := [10, 11, 20, 30] }, 4) := by rfl
  exact ⟨_, 4, h, (C5_delete_callback_cardinality 2 none _ _ 4 h).1⟩

/-- C6: the claim as stated fails on the code: `get` does not always
return a value.  On a capacity-`0` cache with a creator configured,
`get` of an absent key runs into `m_list.back()` on the empty recency
list (undefined behaviour, modelled `none`) instead of returning the
created value. -/
theorem C6_counterexample_capacity_zero :
    get (mk 0 (some (fun n => n * 2)) false : Cache Nat Nat) 7 = none := rfl

/-- C7: `at` and `contains` are pure peeks: as steps they leave the
whole state (contents, recency order, capacity, callback log) unchanged;
`contains` returns exactly membership, and `at` returns the stored value
of a present key and `none` for an absent one. -/
theorem C7_peek_purity (c : Cache K V) (k : K) (hwf : WF c) :
    step c (Op.atOp k) = some c ∧ step c (Op.containsOp k) = some c ∧
    (contains c k = true ↔ k ∈ c.list) ∧
    (∀ v : V, (k, v) ∈ c.map → atKey c k = some v) ∧
    (contains c k = false → atKey c k = none) := by
  refine ⟨rfl, rfl, hwf.contains_iff k, ?_, ?_⟩
  · intro v hv
    exact mapFind_eq_some_of_mem c.map k v hwf.keys_nodup hv
  · intro hck
    exact (mapFind_eq_none_iff c.map k).mpr ((contains_false_iff_keys c k).mp hck)

/-- Witness for C7 at a concrete cache, for a present and an absent key. -/
theorem C7_peek_purity_witness :
    (step ({ list := [1], map := [(1, 5)], capacity := 2, onCreate := none,
             hasCb := false, dlog := [] } : Cache Nat Nat) (Op.atOp 1) =
      some { list := [1], map := [(1, 5)], capacity := 2, onCreate := none,
             hasCb := false, dlog := [] } ∧
     atKey ({ list := [1], map := [(1, 5)], capacity := 2, onCreate := none,
              hasCb := false, dlog := [] } : Cache Nat Nat) 1 = some 5) ∧
    atKey ({ list := [1], map := [(1, 5)], capacity := 2, onCreate := none,
             hasCb := false, dlog := [] } : Cache Nat Nat) 9 = none := by
  refine ⟨⟨?_, ?_⟩, ?_⟩
  · exact (C7_peek_purity _ 1 ⟨by decide, by decide⟩).1
  · exact (C7_peek_purity _ 1 ⟨by decide, by decide⟩).2.2.2.1 5 (by decide)
  · exact (C7_peek_purity _ 9 ⟨by decide, by decide⟩).2.2.2.2 (by decide)

/-- C8: key absence is signalled by `false`, never raised, and is
state-preserving: `erase` and `assign` on an absent key return `false`
and leave the cache bit-for-bit unchanged, and `insert` on a present key
returns `false` without mutation. -/
theorem C8_absence_signalling (c : Cache K V) (k : K) (v : V) :
    (contains c k = false → erase c k = (false, c) ∧ assign c k v = (false, c)) ∧
    (contains c k = true → insert c k v = some (false, c)) := by
  constructor
  · intro hck
    have hq : (mapFind c.map k).isSome = false := hck
    constructor
    · unfold erase
      rw [if_neg (by simp [hq])]
    · unfold assign
      rw [if_neg (by simp [hq])]
  · intro hck
    have hq : (mapFind c.map k).isSome = true := hck
    have hnn : ¬(mapFind c.map k).isNone = true := by
      cases hmf : mapFind c.map k
      · rw [hmf] at hq; simp at hq
      · simp
    unfold insert
    rw [if_neg hnn]

/-- Witness for C8 at a concrete cache, for an absent and a present key. -/
theorem C8_absence_signalling_witness :
    (contains ({ list := [1], map := [(1, 5)], capacity := 2, onCreate := none,
                 hasCb := false, dlog := [] } : Cache Nat Nat) 2 = false ∧
     erase ({ list := [1], map := [(1, 5)], capacity := 2, onCreate := none,
              hasCb := false, dlog := [] } : Cache Nat Nat) 2 =
       (false, { list := [1], map := [(1, 5)], capacity := 2, onCreate := none,
                 hasCb := false, dlog := [] }) ∧
     assign ({ list := [1], map := [(1, 5)], capacity := 2, onCreate := none,
               hasCb := false, dlog := [] } : Cache Nat Nat) 2 9 =
       (false, { list := [1], map := [(1, 5)], capacity := 2, onCreate := none,
                 hasCb := false, dlog := [] })) ∧
    (contains ({ list := [1], map := [(1, 5)], capacity := 2, onCreate := none,
                 hasCb := false, dlog := [] } : Cache Nat Nat) 1 = true ∧
     insert ({ list := [1], map := [(1, 5)], capacity := 2, onCreate := none,
               hasCb := false, dlog := [] } : Cache Nat Nat) 1 9 =
       some (false, { list := [1], map := [(1, 5)], capacity := 2,
                      onCreate := none, hasCb := false, dlog := [] })) := by
  refine ⟨⟨by decide, ?_, ?_⟩, by decide, ?_⟩
  · exact ((C8_absence_signalling _ 2 9).1 (by decide)).1
  · exact ((C8_absence_signalling _ 2 9).1 (by decide)).2
  · exact (C8_absence_signalling _ 1 9).2 (by decide)

/-- C10: `touch` is idempotent on the state — touching a present key
twice yields exactly the state of touching it once (and still returns
`true`) — and touching the already most-recently-used key leaves the
entire state unchanged while returning `true`. -/
theorem C10_touch_idempotent (c : Cache K V) (k : K)
    (hk : contains c k = true) :
    touch (touch c k).2 k = (true, (touch c k).2) ∧
    (c.list.head? = some k → touch c k = (true, c)) := by
  have hq : (mapFind c.map k).isSome = true := hk
  have ht1 : touch c k = (true, touchAt c k) := by
    unfold touch
    rw [if_pos hq]
  constructor
  · rw [ht1]
    have hq2 : (mapFind (touchAt c k).map k).isSome = true := hq
    show touch (touchAt c k) k = (true, touchAt c k)
    unfold touch
    rw [if_pos hq2]
    have hidem : touchAt (touchAt c k) k = touchAt c k := by
      show ({ c with list := k :: (k :: c.list.erase k).erase k } : Cache K V)
        = { c with list := k :: c.list.erase k }
      rw [List.erase_cons_head]
    rw [hidem]
  · intro hh
    cases hl : c.list with
    | nil => rw [hl] at hh; simp at hh
    | cons a t =>
      rw [hl] at hh
      simp only [List.head?_cons, Option.some.injEq] at hh
      subst hh
      rw [ht1]
      have hfix : touchAt c a = c := by
        show ({ c with list := a :: c.list.erase a } : Cache K V) = c
        rw [hl, List.erase_cons_head, ← hl]
      rw [hfix]

/-- C6 (amended): on a cache of positive capacity, `get` of an absent
key synthesises a value with `on_create` (a default-constructed value
when no creator is configured), inserts it as most-recently-used —
evicting the least-recently-used entry when the cache is full — and
returns that value. -/
theorem C6_get_or_create (c : Cache K V) (k : K) (hwf : WF c)
    (hcap : 1 ≤ c.capacity) (hsz : size c ≤ c.capacity)
    (habs : contains c k = false) :
    ∃ c₂, get c k = some (createVal c k, c₂) ∧
      c₂.list.head? = some k ∧ atKey c₂ k = some (createVal c k) ∧
      size c₂ ≤ c.capacity ∧
      (size c < c.capacity → size c₂ = size c + 1) ∧
      (size c = c.capacity →
        size c₂ = c.capacity ∧
        ∀ a, c.list.getLast? = some a → contains c₂ a = false) := by
  have hmf : mapFind c.map k = none := by
    have hq : (mapFind c.map k).isSome = false := habs
    cases hq2 : mapFind c.map k
    · rfl
    · rw [hq2] at hq
      simp at hq
  obtain ⟨c₁, hms⟩ : ∃ c₁, make_space c = some c₁ := by
    unfold make_space
    by_cases hse : size c = c.capacity
    · rw [if_pos hse]
      unfold erase_oldest
      cases hg : c.list.getLast? with
      | none =>
        exfalso
        have hnil : c.list = [] := by
          cases hlc : c.list
          · rfl
          · rw [hlc] at hg
            simp at hg
        have hlen := hwf.size_eq
        rw [hnil] at hlen
        simp at hlen
        omega
      | some a => exact ⟨_, rfl⟩
    · rw [if_neg hse]
      exact ⟨c, rfl⟩
  have hins : insert c k (createVal c k) =
      some (true, { c₁ with list := k :: c₁.list, map := c₁.map ++ [(k, createVal c k)] }) := by
    unfold insert
    rw [hmf]
    simp only [Option.isNone_none]
    rw [if_pos trivial, hms]
  obtain ⟨hwf₂, hcap₂, hoc₂, hcb₂, hpres, habs'⟩ := insert_pres hwf hins
  obtain ⟨hb, hfind, hhead, hcase⟩ := habs' habs
  refine ⟨{ c₁ with list := k :: c₁.list, map := c₁.map ++ [(k, createVal c k)] },
    ?_, hhead, hfind, ?_, ?_, ?_⟩
  · unfold get
    simp only [hmf, hins, hfind, Option.getD_some]
  · rcases hcase with ⟨heq, hs, _, _, _⟩ | ⟨hne, hs, _, _⟩
    · rw [hs]
      exact hsz
    · rw [hs]
      omega
  · intro hlt
    rcases hcase with ⟨heq, _, _, _, _⟩ | ⟨_, hs, _, _⟩
    · omega
    · exact hs
  · intro heqq
    rcases hcase with ⟨heq, hs, _, hev, _⟩ | ⟨hne, _, _, _⟩
    · refine ⟨?_, hev⟩
      rw [hs]
      exact heqq
    · exact absurd heqq hne

/-- Witness for C6 (amended) at the spec's example: creator `n ↦ 2 n`
and `get 7` on an empty cache of capacity 1, which returns `14`. -/
theorem C6_get_or_create_witness :
    (∃ c₂ : Cache Nat Nat,
      get (mk 1 (some (fun n => n * 2)) false) 7 =
        some (createVal (mk 1 (some (fun n => n * 2)) false : Cache Nat Nat) 7,
          c₂) ∧
      c₂.list.head? = some 7 ∧
      atKey c₂ 7 =
        some (createVal (mk 1 (some (fun n => n * 2)) false : Cache Nat Nat) 7) ∧
      size c₂ ≤ (mk 1 (some (fun n => n * 2)) false : Cache Nat Nat).capacity ∧
      (size (mk 1 (some (fun n => n * 2)) false : Cache Nat Nat) <
          (mk 1 (some (fun n => n * 2)) false : Cache Nat Nat).capacity →
        size c₂ = size (mk 1 (some (fun n => n * 2)) false : Cache Nat Nat) + 1) ∧
      (size (mk 1 (some (fun n => n * 2)) false : Cache Nat Nat) =
          (mk 1 (some (fun n => n * 2)) false : Cache Nat Nat).capacity →
        size c₂ = (mk 1 (some (fun n => n * 2)) false : Cache Nat Nat).capacity ∧
        ∀ a, (mk 1 (some (fun n => n * 2)) false : Cache Nat Nat).list.getLast?
            = some a → contains c₂ a = false)) ∧
    createVal (mk 1 (some (fun n => n * 2)) false : Cache Nat Nat) 7 = 14 :=
  ⟨C6_get_or_create _ 7 ⟨by decide, by decide⟩ (by decide) (by decide)
    (by decide), rfl⟩

/-- The keys of an association list built by pairing each key with a
computed value are the keys themselves. -/
theorem keys_map_pair (ks : List K) (f : K → V) :
    (ks.map (fun k => (k, f k))).map Prod.fst = ks := by
  induction ks with
  | nil => rfl
  | cons k ks ih => simp [ih]

/-- Filling a cache with fresh distinct keys, staying within capacity,
appends the entries one by one and performs no eviction. -/
theorem insertAll_below_capacity : ∀ (ks : List K) (c : Cache K V) (f : K → V),
    WF c → ks.Nodup → (∀ k ∈ ks, contains c k = false) →
    size c + ks.length ≤ c.capacity →
    insertAll c ks f =
      some { c with list := ks.reverse ++ c.list, map := c.map ++ ks.map (fun k => (k, f k)) } := by
  intro ks
  induction ks with
  | nil =>
    intro c f hwf hnd habs hsz
    unfold insertAll
    rw [List.foldlM_nil]
    refine congrArg some ?_
    apply Cache.ext <;> simp
  | cons k ks ih =>
    intro c f hwf hnd habs hsz
    have habsk : contains c k = false := habs k (by simp)
    have hmfk : mapFind c.map k = none := by
      have hq : (mapFind c.map k).isSome = false := habsk
      cases hq2 : mapFind c.map k
      · rfl
      · rw [hq2] at hq
        simp at hq
    have hne : size c ≠ c.capacity := by
      simp only [List.length_cons] at hsz
      omega
    let c₁ : Cache K V := { c with list := k :: c.list, map := c.map ++ [(k, f k)] }
    have hc₁ : c₁ = { c with list := k :: c.list, map := c.map ++ [(k, f k)] } := rfl
    have hins : insert c k (f k) = some (true, c₁) := by
      rw [hc₁]
      unfold insert make_space
      rw [hmfk]
      simp only [Option.isNone_none]
      rw [if_pos trivial, if_neg hne]
    obtain ⟨hwf₁, hcap₁, hoc₁, hcb₁, _, habs₁'⟩ := insert_pres hwf hins
    obtain ⟨_, hfind₁, _, hcase⟩ := habs₁' habsk
    have hframe : ∀ x, x ≠ k → contains c₁ x = contains c x := by
      rcases hcase with ⟨heq, _, _, _, _⟩ | ⟨_, _, _, hfr⟩
      · exact absurd heq hne
      · exact hfr
    have habs' : ∀ x ∈ ks, contains c₁ x = false := by
      intro x hx
      have hxk : x ≠ k := by
        rintro rfl
        exact (List.nodup_cons.mp hnd).1 hx
      rw [hframe x hxk]
      exact habs x (by simp [hx])
    have hsz' : size c₁ + ks.length ≤ c₁.capacity := by
      show (c.map ++ [(k, f k)]).length + ks.length ≤ c.capacity
      simp only [size, List.length_cons] at hsz
      simp only [List.length_append, List.length_cons, List.length_nil]
      omega
    have hrec := ih c₁ f hwf₁ (List.nodup_cons.mp hnd).2 habs' hsz'
    have hstep : insertAll c (k :: ks) f = insertAll c₁ ks f := by
      unfold insertAll
      rw [List.foldlM_cons, hins]
      rfl
    rw [hstep, hrec]
    refine congrArg some ?_
    rw [hc₁]
    apply Cache.ext <;> simp [List.append_assoc]

/-- C3: for every capacity ≥ 1, inserting `capacity + 1` distinct keys
into a fresh cache with no intervening reads evicts exactly the
first-inserted key: afterwards the first key is absent, the remaining
`capacity` keys are all present, and the size equals the capacity. -/
theorem C3_lru_evicts_first (cap : Nat) (k0 : K) (ks : List K) (f : K → V)
    (hcap : 1 ≤ cap) (hnd : (k0 :: ks).Nodup) (hlen : ks.length = cap)
    {c' : Cache K V}
    (h : insertAll (mk cap none false) (k0 :: ks) f = some c') :
    contains c' k0 = false ∧ (∀ k ∈ ks, contains c' k = true) ∧
    size c' = cap := by
  have hks : ks ≠ [] := by
    intro h0
    rw [h0] at hlen
    simp at hlen
    omega
  obtain ⟨init, klast, rfl⟩ : ∃ init klast, ks = init ++ [klast] :=
    ⟨ks.dropLast, ks.getLast hks, (List.dropLast_append_getLast hks).symm⟩
  have hlen' : init.length + 1 = cap := by simpa using hlen
  have hnd0 : k0 ∉ init ++ [klast] := (List.nodup_cons.mp hnd).1
  have hndtl : (init ++ [klast]).Nodup := (List.nodup_cons.mp hnd).2
  have hklast_init : klast ∉ init := by
    rw [List.nodup_append] at hndtl
    exact fun hm => hndtl.2.2 hm (by simp)
  have hk0_init : k0 ∉ init := fun hm => hnd0 (by simp [hm])
  have hk0_klast : k0 ≠ klast := fun he => hnd0 (by simp [he])
  have hndP : (k0 :: init).Nodup := by
    rw [List.nodup_append] at hndtl
    exact List.nodup_cons.mpr ⟨hk0_init, hndtl.1⟩
  have hpre := insertAll_below_capacity (k0 :: init) (mk cap none false) f
    (mk_wf _ _ _) hndP (fun x _ => rfl) (by simp [mk, size]; omega)
  let cP : Cache K V :=
    { list := (k0 :: init).reverse, map := (k0 :: init).map (fun k => (k, f k)),
      capacity := cap, onCreate := none, hasCb := false, dlog := [] }
  have hcP : cP = { list := (k0 :: init).reverse, map := (k0 :: init).map (fun k => (k, f k)), capacity := cap, onCreate := none, hasCb := false, dlog := [] } := rfl
  have hpre' : insertAll (mk cap none false) (k0 :: init) f = some cP := by
    rw [hpre, hcP]
    refine congrArg some ?_
    apply Cache.ext <;> simp [mk, keys_map_pair]
  have hsplit : insertAll (mk cap none false : Cache K V)
        (k0 :: (init ++ [klast])) f
      = (insertAll (mk cap none false) (k0 :: init) f).bind
          (fun c₀ => insertAll c₀ [klast] f) := by
    unfold insertAll
    rw [show (k0 :: (init ++ [klast])) = (k0 :: init) ++ [klast] from rfl]
    rw [List.foldlM_append]
    rfl
  rw [hsplit, hpre'] at h
  simp only [Option.some_bind] at h
  have hkeysP : (((k0 :: init).map (fun k => (k, f k))).map Prod.fst)
      = k0 :: init := keys_map_pair (k0 :: init) f
  have hwfP : WF cP := by
    rw [hcP]
    constructor
    · exact List.nodup_reverse.mpr hndP
    · show (((k0 :: init).map (fun k => (k, f k))).map Prod.fst).Perm
        (k0 :: init).reverse
      rw [hkeysP]
      exact (List.reverse_perm (k0 :: init)).symm
  have habsP : contains cP klast = false := by
    rw [contains_false_iff_keys, hcP]
    show klast ∉ ((k0 :: init).map (fun k => (k, f k))).map Prod.fst
    rw [hkeysP]
    simp [Ne.symm hk0_klast, hklast_init]
  have hsizeP : size cP = cap := by
    rw [hcP]
    simp only [size, List.length_map, List.length_cons]
    omega
  have hgetlastP : cP.list.getLast? = some k0 := by
    rw [hcP]
    show ((k0 :: init).reverse).getLast? = some k0
    rw [List.getLast?_reverse]
    rfl
  unfold insertAll at h
  rw [List.foldlM_cons] at h
  cases hins : insert cP klast (f klast) with
  | none =>
    rw [hins] at h
    simp at h
  | some p =>
    obtain ⟨b, c₂⟩ := p
    rw [hins] at h
    simp only [Option.map_some', Option.some_bind, List.foldlM_nil] at h
    obtain rfl := Option.some.inj h
    obtain ⟨hwf₂, hcap₂, hoc₂, hcb₂, _, habs₂'⟩ := insert_pres hwfP hins
    obtain ⟨hb, hfind₂, hhead₂, hcase⟩ := habs₂' habsP
    rcases hcase with ⟨heq, hs, _, hevict, hframe⟩ | ⟨hneq, _, _, _⟩
    · refine ⟨hevict k0 hgetlastP, ?_, by rw [hs, hsizeP]⟩
      intro x hx
      by_cases hxk : x = klast
      · rw [hxk]
        unfold contains
        rw [hfind₂]
        rfl
      · have hxk0 : x ≠ k0 := by
          rintro rfl
          rcases List.mem_append.mp hx with hm | hm
          · exact hk0_init hm
          · simp at hm
            exact hk0_klast hm
        have hxinit : x ∈ init := by
          rcases List.mem_append.mp hx with hm | hm
          · exact hm
          · simp at hm
            exact absurd hm hxk
        rw [hframe k0 hgetlastP x hxk0 hxk]
        rw [contains_iff_mem_keys, hcP]
        show x ∈ ((k0 :: init).map (fun k => (k, f k))).map Prod.fst
        rw [hkeysP]
        simp [hxinit]
    · exact absurd hsizeP hneq

/-- Witness for C3 at capacity 2 with keys 0, 1, 2. -/
theorem C3_lru_evicts_first_witness :
    ∃ c' : Cache Nat Nat,
      insertAll (mk 2 none false) [0, 1, 2] (fun n => n * 10) = some c' ∧
      (contains c' 0 = false ∧ (∀ k ∈ [1, 2], contains c' k = true) ∧
        size c' = 2) := by
  have h : insertAll (mk 2 none false : Cache Nat Nat) [0, 1, 2]
      (fun n => n * 10) =
      some { list := [2, 1], map := [(1, 10), (2, 20)], capacity := 2,
             onCreate := none, hasCb := false, dlog := [] } := by rfl
  exact ⟨_, h, C3_lru_evicts_first 2 0 [1, 2] (fun n => n * 10) (by decide)
    (by decide) (by decide) h⟩

/-- Loading entries with `insert_or_assign` from any within-capacity
state always succeeds; with fresh distinct keys it fills exactly and
keeps every loaded key present. -/
theorem loadAux : ∀ (rest : List (K × V)) (c : Cache K V), WF c →
    size c + rest.length ≤ c.capacity →
    ∃ c', rest.foldlM (fun c kv => insert_or_assign c kv.1 kv.2) c = some c' ∧
      WF c' ∧ c'.capacity = c.capacity ∧ c'.onCreate = c.onCreate ∧
      c'.hasCb = c.hasCb ∧
      ((rest.map Prod.fst).Nodup →
        (∀ kv ∈ rest, contains c kv.1 = false) →
        size c' = size c + rest.length ∧
        (∀ k, contains c' k = true ↔
          (contains c k = true ∨ k ∈ rest.map Prod.fst))) := by
  intro rest
  induction rest with
  | nil =>
    intro c hwf hsz
    refine ⟨c, by rw [List.foldlM_nil]; rfl, hwf, rfl, rfl, rfl, ?_⟩
    intro _ _
    exact ⟨by simp, fun k => by simp⟩
  | cons kv rest ih =>
    obtain ⟨k, v⟩ := kv
    intro c hwf hsz
    by_cases hck : contains c k = true
    · have hq : (mapFind c.map k).isSome = true := hck
      have hioa : insert_or_assign c k v = some (assignAt c k v) := by
        unfold insert_or_assign
        rw [if_pos hq]
      obtain ⟨hwf₁, hs₁, hcap₁, hoc₁, hcb₁, _⟩ := assignAt_pres v hwf hck
      have hsz₁ : size (assignAt c k v) + rest.length ≤
          (assignAt c k v).capacity := by
        rw [hs₁, hcap₁]
        simp only [List.length_cons] at hsz
        omega
      obtain ⟨c', hc', hwf', hcap', hoc', hcb', hfresh'⟩ :=
        ih (assignAt c k v) hwf₁ hsz₁
      refine ⟨c', ?_, hwf', hcap'.trans hcap₁, hoc'.trans hoc₁,
        hcb'.trans hcb₁, ?_⟩
      · rw [List.foldlM_cons]
        dsimp only
        rw [hioa]
        exact hc'
      · intro hnd hfresh
        exfalso
        have h2 : contains c k = false := hfresh (k, v) (by simp)
        rw [h2] at hck
        simp at hck
    · have hck' : contains c k = false := by
        cases hc2 : contains c k
        · rfl
        · exact absurd hc2 hck
      have hmfk : mapFind c.map k = none := by
        have hq : (mapFind c.map k).isSome = false := hck'
        cases hq2 : mapFind c.map k
        · rfl
        · rw [hq2] at hq
          simp at hq
      have hne : size c ≠ c.capacity := by
        simp only [List.length_cons] at hsz
        omega
      let c₁ : Cache K V := { c with list := k :: c.list, map := c.map ++ [(k, v)] }
      have hc₁ : c₁ = { c with list := k :: c.list, map := c.map ++ [(k, v)] } := rfl
      have hins : insert c k v = some (true, c₁) := by
        rw [hc₁]
        unfold insert make_space
        rw [hmfk]
        simp only [Option.isNone_none]
        rw [if_pos trivial, if_neg hne]
      have hioa : insert_or_assign c k v = some c₁ := by
        unfold insert_or_assign
        have hq : ¬(mapFind c.map k).isSome = true := by
          rw [hmfk]
          simp
        rw [if_neg hq, hins]
        rfl
      obtain ⟨hwf₁, hcap₁, hoc₁, hcb₁, _, habs₁'⟩ := insert_pres hwf hins
      obtain ⟨_, hfind₁, _, hcase⟩ := habs₁' hck'
      have hframe : ∀ x, x ≠ k → contains c₁ x = contains c x := by
        rcases hcase with ⟨heq, _, _, _, _⟩ | ⟨_, _, _, hfr⟩
        · exact absurd heq hne
        · exact hfr
      have hsz₁ : size c₁ + rest.length ≤ c₁.capacity := by
        show (c.map ++ [(k, v)]).length + rest.length ≤ c.capacity
        simp only [size, List.length_cons] at hsz
        simp only [List.length_append, List.length_cons, List.length_nil]
        omega
      obtain ⟨c', hc', hwf', hcap', hoc', hcb', hfresh'⟩ := ih c₁ hwf₁ hsz₁
      refine ⟨c', ?_, hwf', hcap'.trans hcap₁, hoc'.trans hoc₁,
        hcb'.trans hcb₁, ?_⟩
      · rw [List.foldlM_cons]
        dsimp only
        rw [hioa]
        exact hc'
      · intro hnd hfresh
        simp only [List.map_cons] at hnd
        have hknotin : k ∉ rest.map Prod.fst := (List.nodup_cons.mp hnd).1
        have hndrest := (List.nodup_cons.mp hnd).2
        have hfreshrest : ∀ kv ∈ rest, contains c₁ kv.1 = false := by
          intro kv hkv
          have hkvk : kv.1 ≠ k := by
            intro he
            exact hknotin (he ▸ List.mem_map_of_mem Prod.fst hkv)
          rw [hframe kv.1 hkvk]
          exact hfresh kv (by simp [hkv])
        obtain ⟨hsz'', hmem''⟩ := hfresh' hndrest hfreshrest
        constructor
        · rw [hsz'']
          have hsc₁ : size c₁ = size c + 1 := by
            show (c.map ++ [(k, v)]).length = c.map.length + 1
            simp
          simp only [List.length_cons]
          omega
        · intro x
          rw [hmem'' x]
          by_cases hxk : x = k
          · rw [hxk]
            have hck₁ : contains c₁ k = true := by
              unfold contains
              rw [hfind₁]
              rfl
            constructor
            · intro _
              right
              simp
            · intro _
              left
              exact hck₁
          · rw [hframe x hxk]
            simp only [List.map_cons, List.mem_cons]
            constructor
            · rintro (h1 | h2)
              · exact Or.inl h1
              · exact Or.inr (Or.inr h2)
            · rintro (h1 | h2 | h3)
              · exact Or.inl h1
              · exact absurd h2 hxk
              · exact Or.inr h3

/-- C9: the initializer-list constructor sets the capacity to the length
of the given sequence (duplicate-key pairs counted), installs no
creation or deletion callback, and — when the keys are distinct — loads
every pair with no eviction: the final size is the full length and every
listed key is present. -/
theorem C9_init_list_ctor (il : List (K × V)) {c' : Cache K V}
    (h : ofInitList il = some c') :
    c'.capacity = il.length ∧ c'.onCreate = none ∧ c'.hasCb = false ∧
    ((il.map Prod.fst).Nodup →
      size c' = il.length ∧ ∀ kv ∈ il, contains c' kv.1 = true) := by
  obtain ⟨c'', hc'', hwf'', hcap'', hoc'', hcb'', hfresh''⟩ :=
    loadAux il (mk il.length none false) (mk_wf _ _ _) (by simp [mk, size])
  unfold ofInitList at h
  rw [hc''] at h
  obtain rfl := Option.some.inj h
  refine ⟨by simpa [mk] using hcap'', by simpa [mk] using hoc'',
    by simpa [mk] using hcb'', ?_⟩
  intro hnd
  obtain ⟨hsz, hmem⟩ := hfresh'' hnd (fun kv _ => rfl)
  refine ⟨by simpa [mk, size] using hsz, ?_⟩
  intro kv hkv
  rw [hmem kv.1]
  right
  exact List.mem_map_of_mem Prod.fst hkv

/-- Witness for C9 at a concrete initial list with distinct keys. -/
theorem C9_init_list_ctor_witness :
    ∃ c' : Cache Nat Nat,
      ofInitList [(1, 10), (2, 20)] = some c' ∧
      c'.capacity = 2 ∧ c'.onCreate = none ∧ c'.hasCb = false ∧
      size c' = 2 ∧ ∀ kv ∈ [(1, 10), (2, 20)], contains c' kv.1 = true := by
  have h : ofInitList [(1, 10), (2, 20)] =
      some ({ list := [2, 1], map := [(1, 10), (2, 20)], capacity := 2, onCreate := none, hasCb := false, dlog := [] } : Cache Nat Nat) := by rfl
  obtain ⟨hcap, hoc, hcb, hfr⟩ := C9_init_list_ctor [(1, 10), (2, 20)] h
  obtain ⟨hsz, hmem⟩ := hfr (by decide)
  exact ⟨_, h, hcap, hoc, hcb, hsz, hmem⟩

/-- C4: `get` on a present key promotes it to most-recently-used: with
capacity 2 and keys `A`, `B` inserted in that order, running `get A` and
then inserting a fresh key `C` evicts `B`, leaving `A` and `C` present. -/
theorem C4_get_promotes (A B Cc : K) (va vb vc : V)
    (hAB : A ≠ B) (hAC : A ≠ Cc) (hBC : B ≠ Cc) :
    ∃ c₄, run (mk 2 none false)
        [Op.insertOp A va, Op.insertOp B vb, Op.getOp A, Op.insertOp Cc vc]
        = some c₄ ∧
      contains c₄ A = true ∧ contains c₄ B = false ∧ contains c₄ Cc = true := by
  refine ⟨{ list := [Cc, A], map := [(A, va), (Cc, vc)], capacity := 2,
            onCreate := none, hasCb := false, dlog := [] }, ?_, ?_, ?_, ?_⟩
  · simp [run, runCount, step, insert, make_space, erase_oldest, map_erase,
      get, touchAt, mapFind, mapEraseKey, size, mk, introducedOf, contains,
      hAB, hAC, hBC, Ne.symm hAB, Ne.symm hAC, Ne.symm hBC]
  · simp [contains, mapFind]
  · simp [contains, mapFind, hAB, Ne.symm hBC]
  · simp [contains, mapFind, hAC]

/-- Witness for C4 at concrete keys and values. -/
theorem C4_get_promotes_witness :
    ∃ c₄ : Cache Nat Nat,
      run (mk 2 none false)
        [Op.insertOp 0 10, Op.insertOp 1 11, Op.getOp 0, Op.insertOp 2 12]
        = some c₄ ∧
      contains c₄ 0 = true ∧ contains c₄ 1 = false ∧ contains c₄ 2 = true :=
  C4_get_promotes 0 1 2 10 11 12 (by decide) (by decide) (by decide)

/-- Witness for C10 at a concrete cache: key `2` is present but not in
front, key `1` is in front. -/
theorem C10_touch_idempotent_witness :
    (contains ({ list := [1, 2], map := [(1, 5), (2, 6)], capacity := 3,
                 onCreate := none, hasCb := false, dlog := [] } : Cache Nat Nat)
        2 = true ∧
     touch (touch ({ list := [1, 2], map := [(1, 5), (2, 6)], capacity := 3,
                     onCreate := none, hasCb := false,
                     dlog := [] } : Cache Nat Nat) 2).2 2 =
       (true, (touch ({ list := [1, 2], map := [(1, 5), (2, 6)], capacity := 3,
                        onCreate := none, hasCb := false,
                        dlog := [] } : Cache Nat Nat) 2).2)) ∧
    touch ({ list := [1, 2], map := [(1, 5), (2, 6)], capacity := 3,
             onCreate := none, hasCb := false, dlog := [] } : Cache Nat Nat) 1 =
      (true, { list := [1, 2], map := [(1, 5), (2, 6)], capacity := 3,
               onCreate := none, hasCb := false, dlog := [] }) := by
  refine ⟨⟨by decide, ?_⟩, ?_⟩
  · exact (C10_touch_idempotent _ 2 (by decide)).1
  · exact (C10_touch_idempotent _ 1 (by decide)).2 rfl

end LRU
